import Mathlib

/-!
Verification of the core of `mac-space-explorer`: the directory scanner
(`src/core/scanner.rs`) and the squarified treemap layout engine
(`src/ui/treemap.rs`), shallowly embedded in Lean.

Filesystem reads are modelled by an explicit tree of directory entries in
which every read that can fail in Rust (a walk item, `metadata()`, the
timestamp getters) is an `Option` or a `Bool` in the model.  A Rust panic
(`unwrap` on a failed `metadata()` read, scanner.rs line 64) is modelled by
the scan returning `none`.  The `f32` arithmetic of the layout engine is
modelled by exact rational arithmetic.
-/

namespace MacSpace

/-- Kind of a filesystem object as reported by its metadata
(`is_file` / `is_dir`; `other` covers objects that are neither). -/
inductive FileKind where
  | file
  | dir
  | other
deriving DecidableEq, Repr

/-- Filesystem metadata for one object: its kind, byte length, and the two
timestamps. In Rust `metadata.created()` and `metadata.modified()` return
`Result`s, hence `Option` here (`none` = the call fails). Times are
abstracted as naturals. -/
structure MetaData where
  kind : FileKind
  len : Nat
  created : Option Nat
  modified : Option Nat
deriving DecidableEq, Repr

/-- One node of the modelled filesystem tree.  `readOk` says whether the
walker can produce this entry at all: a `false` node corresponds to a
`walkdir` item that is an `Err` — it is dropped by `.filter_map(|e| e.ok())`
and its subtree is not visited.  `meta` is the result of `entry.metadata()`
(`none` = that call fails).  `children` is the listing underneath the node
(empty for plain files). -/
inductive FSEntry where
  | mk (readOk : Bool) (path : String) (meta : Option MetaData) (children : List FSEntry)

/-- Whether the walker can read this entry. -/
def FSEntry.readOk : FSEntry → Bool
  | .mk b _ _ _ => b

/-- The path of this entry. -/
def FSEntry.path : FSEntry → String
  | .mk _ p _ _ => p

/-- The result of `entry.metadata()` for this entry. -/
def FSEntry.meta : FSEntry → Option MetaData
  | .mk _ _ m _ => m

/-- The directory listing underneath this entry. -/
def FSEntry.children : FSEntry → List FSEntry
  | .mk _ _ _ cs => cs

mutual

/-- The sequence of entries yielded by `WalkDir::new` rooted at `e`, after
`.filter_map(|entry| entry.ok())`: the root itself followed by the
recursive walks of its children; an unreadable node yields nothing and is
not descended into. -/
def walkList : FSEntry → List FSEntry
  | .mk b p m cs => if b then .mk b p m cs :: walkLists cs else []

/-- Concatenated walks of a list of siblings, in listing order. -/
def walkLists : List FSEntry → List FSEntry
  | [] => []
  | c :: cs => walkList c ++ walkLists cs

end

/-- The `filter_map(metadata).filter(is_file).map(len).sum` chain of
`get_dir_size`, applied to a sequence of walked entries. -/
def walkSum (l : List FSEntry) : Nat :=
  ((((l.filterMap FSEntry.meta).filter
      (fun m => decide (m.kind = FileKind.file))).map MetaData.len).sum)

/-- `get_dir_size` (scanner.rs lines 32–40): walk the subtree, keep the
entries that can be read, keep the metadata that can be read, keep regular
files, and sum their byte lengths. -/
def get_dir_size (e : FSEntry) : Nat :=
  walkSum (walkList e)

mutual

/-- Specification-level recursive characterisation of a directory's size:
an unreadable node contributes nothing (its whole subtree is excluded), a
readable node contributes its own byte length when it is a regular file
(directories and metadata-less nodes contribute zero) plus the sizes of
its children. -/
def dirFileSum : FSEntry → Nat
  | .mk b _ m cs =>
    if b then
      (match m with
       | some md => if md.kind = FileKind.file then md.len else 0
       | none => 0) + dirFileSums cs
    else 0

/-- Sum of `dirFileSum` over a listing. -/
def dirFileSums : List FSEntry → Nat
  | [] => 0
  | c :: cs => dirFileSum c + dirFileSums cs

end

/-- `FileEntry` (scanner.rs lines 4–11). Times are naturals, paths strings. -/
structure FileEntry where
  path : String
  size : Nat
  created : Nat
  modified : Nat
  is_dir : Bool
deriving DecidableEq, Repr

/-- `ScanProgress` (scanner.rs lines 13–19). -/
structure ScanProgress where
  total_files : Nat
  scanned_files : Nat
  current_path : Option String
  total_size : Nat
deriving DecidableEq, Repr

/-- `ScanProgress::default()` (scanner.rs lines 21–30). -/
def defaultProgress : ScanProgress :=
  { total_files := 0, scanned_files := 0, current_path := none, total_size := 0 }

/-- The immediate children the depth-1 walk actually yields: those whose
walk item is `Ok` (`filter_map(|e| e.ok())`), in listing order.  Both the
count pass and the build pass of `scan_directory` traverse this list. -/
def okChildren (children : List FSEntry) : List FSEntry :=
  children.filter (fun c => c.readOk)

/-- The size the scanner computes for one child with metadata `m`
(scanner.rs lines 65–69): the byte length for a regular file, the
recursive `get_dir_size` otherwise. -/
def childSize (c : FSEntry) (m : MetaData) : Nat :=
  if m.kind = FileKind.file then m.len else get_dir_size c

/-- The per-child progress update performed before the metadata read
(scanner.rs lines 61–62): record the current path and bump
`scanned_files`. -/
def stepPath (p : ScanProgress) (c : FSEntry) : ScanProgress :=
  { p with current_path := some c.path, scanned_files := p.scanned_files + 1 }

/-- The per-child progress update performed after the size is resolved
(scanner.rs line 71): add the child's size to `total_size`. -/
def stepSize (p : ScanProgress) (c : FSEntry) (m : MetaData) : ScanProgress :=
  { p with total_size := p.total_size + childSize c m }

/-- The `FileEntry` pushed for one child (scanner.rs lines 73–79): size as
computed by `childSize`, timestamps falling back to the current time `now`
when the metadata getter fails (`unwrap_or(SystemTime::now())`).  Only
evaluated on children whose metadata read succeeded; the `none` branch is
junk that the scan never produces. -/
def buildEntry (now : Nat) (c : FSEntry) : FileEntry :=
  match c.meta with
  | some m =>
    { path := c.path
      size := childSize c m
      created := m.created.getD now
      modified := m.modified.getD now
      is_dir := decide (m.kind = FileKind.dir) }
  | none =>
    { path := c.path, size := 0, created := now, modified := now, is_dir := false }

/-- The build pass of `scan_directory` (scanner.rs lines 55–80) over the
children the walk yields.  `entry.metadata().unwrap()` on line 64 panics
when the metadata read fails; the panic is modelled by `none`.  Note the
path/`scanned_files` update happens before the metadata read, as in the
source. -/
def scanLoop (now : Nat) : List FSEntry → ScanProgress → Option (List FileEntry × ScanProgress)
  | [], p => some ([], p)
  | c :: cs, p =>
    match c.meta with
    | none => none
    | some m =>
      match scanLoop now cs (stepSize (stepPath p c) c m) with
      | none => none
      | some (es, pf) => some (buildEntry now c :: es, pf)

/-- The sequence of `ScanProgress` values observable during the build pass:
for each child, first the state after the path/`scanned_files` update, then
(when the metadata read succeeds) the state after `total_size` is bumped;
the walk of a child whose metadata read fails ends the trace (the panic). -/
def scanTrace (now : Nat) : List FSEntry → ScanProgress → List ScanProgress
  | [], _ => []
  | c :: cs, p =>
    match c.meta with
    | none => [stepPath p c]
    | some m =>
      stepPath p c :: stepSize (stepPath p c) c m ::
        scanTrace now cs (stepSize (stepPath p c) c m)

/-- The state of the progress record after the count pass (scanner.rs
lines 46–53): `total_files` is the number of readable immediate children,
`scanned_files` is reset to zero; `current_path` and `total_size` are kept. -/
def startProgress (children : List FSEntry) (p : ScanProgress) : ScanProgress :=
  { p with total_files := (okChildren children).length, scanned_files := 0 }

/-- `scan_directory` (scanner.rs lines 42–83), over the fixed listing
`children` of the scanned directory: run the count pass, then the build
pass.  Returns `none` when the build pass panics. -/
def scan_directory (children : List FSEntry) (p : ScanProgress) (now : Nat) :
    Option (List FileEntry × ScanProgress) :=
  scanLoop now (okChildren children) (startProgress children p)

/-- Sum of the sizes of a list of produced entries. -/
def sumSizes (l : List FileEntry) : Nat :=
  (l.map FileEntry.size).sum

/-! ### Scanner lemmas -/

theorem scanLoop_eq_some (now : Nat) :
    ∀ (cs : List FSEntry) (p : ScanProgress) (es : List FileEntry) (pf : ScanProgress),
      scanLoop now cs p = some (es, pf) →
      es = cs.map (buildEntry now) ∧
      pf.total_size = p.total_size + sumSizes es ∧
      pf.scanned_files = p.scanned_files + cs.length ∧
      pf.total_files = p.total_files
  | [], p, es, pf, h => by
    simp only [scanLoop, Option.some.injEq, Prod.mk.injEq] at h
    simp [← h.1, ← h.2, sumSizes]
  | c :: cs, p, es, pf, h => by
    cases hm : c.meta with
    | none => simp [scanLoop, hm] at h
    | some m =>
      cases hrec : scanLoop now cs (stepSize (stepPath p c) c m) with
      | none => simp [scanLoop, hm, hrec] at h
      | some espf =>
        obtain ⟨es', pf'⟩ := espf
        simp only [scanLoop, hm, hrec, Option.some.injEq, Prod.mk.injEq] at h
        obtain ⟨hes, hpf⟩ := h
        obtain ⟨h1, h2, h3, h4⟩ := scanLoop_eq_some now cs _ es' pf' hrec
        subst hes hpf
        refine ⟨by simp [h1], ?_, ?_, ?_⟩
        · simp only [sumSizes, List.map_cons, List.sum_cons] at h2 ⊢
          rw [h2]
          simp only [stepSize, stepPath, buildEntry, hm, sumSizes]
          ring
        · simp only [List.length_cons, h3, stepSize, stepPath]
          omega
        · simpa [stepSize, stepPath] using h4

theorem scanLoop_isSome_iff (now : Nat) :
    ∀ (cs : List FSEntry) (p : ScanProgress),
      (scanLoop now cs p).isSome = true ↔ ∀ c ∈ cs, (c.meta).isSome = true
  | [], p => by simp [scanLoop]
  | c :: cs, p => by
    cases hm : c.meta with
    | none =>
      have hnone : scanLoop now (c :: cs) p = none := by simp [scanLoop, hm]
      rw [hnone]
      simp only [Option.isSome_none, Bool.false_eq_true, false_iff]
      intro hall
      have := hall c (List.mem_cons_self c cs)
      rw [hm] at this
      simp at this
    | some m =>
      have hrec := scanLoop_isSome_iff now cs (stepSize (stepPath p c) c m)
      cases hsc : scanLoop now cs (stepSize (stepPath p c) c m) with
      | none =>
        rw [hsc] at hrec
        have hnone : scanLoop now (c :: cs) p = none := by simp [scanLoop, hm, hsc]
        rw [hnone]
        simp only [Option.isSome_none, Bool.false_eq_true, false_iff]
        intro hall
        have hcs : ∀ c' ∈ cs, (c'.meta).isSome = true :=
          fun c' hc' => hall c' (List.mem_cons_of_mem _ hc')
        have := hrec.mpr hcs
        simp at this
      | some espf =>
        obtain ⟨es', pf'⟩ := espf
        rw [hsc] at hrec
        have hsome : scanLoop now (c :: cs) p = some (buildEntry now c :: es', pf') := by
          simp [scanLoop, hm, hsc]
        rw [hsome]
        simp only [Option.isSome_some, true_iff]
        intro c' hc'
        rcases List.mem_cons.mp hc' with h | h
        · subst h; simp [hm]
        · exact hrec.mp (by simp) c' h

theorem scanTrace_bounds (now : Nat) :
    ∀ (cs : List FSEntry) (p : ScanProgress), ∀ q ∈ scanTrace now cs p,
      q.total_files = p.total_files ∧ q.scanned_files ≤ p.scanned_files + cs.length
  | [], p => by simp [scanTrace]
  | c :: cs, p => by
    intro q hq
    cases hm : c.meta with
    | none =>
      simp only [scanTrace, hm, List.mem_singleton] at hq
      subst hq
      exact ⟨by simp [stepPath], by simp only [stepPath, List.length_cons]; omega⟩
    | some m =>
      simp only [scanTrace, hm, List.mem_cons] at hq
      rcases hq with h | h | h
      · subst h; exact ⟨by simp [stepPath], by simp only [stepPath, List.length_cons]; omega⟩
      · subst h
        exact ⟨by simp [stepSize, stepPath],
          by simp only [stepSize, stepPath, List.length_cons]; omega⟩
      · have := scanTrace_bounds now cs _ q h
        simp only [stepSize, stepPath] at this
        refine ⟨this.1, ?_⟩
        have := this.2
        simp only [List.length_cons]
        omega

theorem walkSum_append (l1 l2 : List FSEntry) :
    walkSum (l1 ++ l2) = walkSum l1 + walkSum l2 := by
  simp [walkSum, List.filterMap_append, List.filter_append]

mutual

theorem walkSum_walkList : ∀ e : FSEntry, walkSum (walkList e) = dirFileSum e
  | .mk b p m cs => by
    cases b with
    | false => simp [walkList, dirFileSum, walkSum]
    | true =>
      have hcs := walkSum_walkLists cs
      simp only [walkList, if_true, dirFileSum]
      cases m with
      | none => simpa [walkSum, FSEntry.meta] using hcs
      | some md =>
        by_cases hk : md.kind = FileKind.file
        · simpa [walkSum, FSEntry.meta, hk] using congrArg (md.len + ·) hcs
        · simpa [walkSum, FSEntry.meta, hk] using hcs

theorem walkSum_walkLists : ∀ cs : List FSEntry, walkSum (walkLists cs) = dirFileSums cs
  | [] => by simp [walkLists, dirFileSums, walkSum]
  | c :: cs => by
    rw [walkLists, walkSum_append, walkSum_walkList c, walkSum_walkLists cs, dirFileSums]

end

theorem get_dir_size_eq_dirFileSum (e : FSEntry) : get_dir_size e = dirFileSum e :=
  walkSum_walkList e

/-! ### Claim theorems for the scanner -/

/-- C1: for every directory listing, when the scan completes (and the
progress record starts, as a fresh one does, with `total_size = 0`), the
sum of the sizes of the entries returned by `scan_directory` equals the
`total_size` field of the `ScanProgress` it populated. -/
theorem scan_total_size_eq_sum_of_entry_sizes
    (children : List FSEntry) (p : ScanProgress) (now : Nat)
    (es : List FileEntry) (pf : ScanProgress)
    (h0 : p.total_size = 0)
    (h : scan_directory children p now = some (es, pf)) :
    pf.total_size = sumSizes es := by
  simp only [scan_directory] at h
  have := scanLoop_eq_some now (okChildren children) (startProgress children p) es pf h
  rw [this.2.1]
  simp [startProgress, h0]

theorem scan_total_size_eq_sum_of_entry_sizes_witness :
    (ScanProgress.mk 1 1 (some "a") 3).total_size =
      sumSizes [FileEntry.mk "a" 3 1 2 false] :=
  scan_total_size_eq_sum_of_entry_sizes
    [FSEntry.mk true "a" (some (MetaData.mk FileKind.file 3 (some 1) (some 2))) []]
    defaultProgress 0 [FileEntry.mk "a" 3 1 2 false] (ScanProgress.mk 1 1 (some "a") 3)
    rfl rfl

/-- C2 counterexample: a single readable child whose `metadata()` read
fails makes the whole scan abort fatally (scanner.rs line 64 calls
`entry.metadata().unwrap()`, which panics), contradicting the claim that a
child whose metadata cannot be read is handled without aborting the scan. -/
theorem scan_metadata_panic_cex :
    scan_directory [FSEntry.mk true "b" none []] defaultProgress 0 = none := rfl

/-- C2 amended: per-entry walk failures never abort the scan (children
whose walk item errors are silently dropped), and timestamp read failures
fall back to the current time; but a child whose `metadata()` read fails
aborts the scan fatally — the scan completes exactly when every readable
child's metadata read succeeds. -/
theorem scan_error_handling_amended
    (children : List FSEntry) (p : ScanProgress) (now : Nat) :
    ((scan_directory children p now).isSome = true ↔
      ∀ c ∈ children, c.readOk = true → (c.meta).isSome = true)
    ∧ (∀ es pf, scan_directory children p now = some (es, pf) →
        es = (okChildren children).map (buildEntry now))
    ∧ (∀ c : FSEntry, ∀ m : MetaData, c.meta = some m →
        (m.created = none → (buildEntry now c).created = now) ∧
        (m.modified = none → (buildEntry now c).modified = now)) := by
  refine ⟨?_, ?_, ?_⟩
  · rw [scan_directory, scanLoop_isSome_iff]
    constructor
    · intro hall c hc hro
      exact hall c (List.mem_filter.mpr ⟨hc, hro⟩)
    · intro hall c hc
      have := List.mem_filter.mp hc
      exact hall c this.1 this.2
  · intro es pf h
    simp only [scan_directory] at h
    exact (scanLoop_eq_some now _ _ es pf h).1
  · intro c m hm
    refine ⟨fun hc => ?_, fun hmo => ?_⟩
    · simp [buildEntry, hm, hc]
    · simp [buildEntry, hm, hmo]

theorem scan_error_handling_amended_witness :
    (scan_directory
      [FSEntry.mk false "c" none [],
       FSEntry.mk true "a" (some (MetaData.mk FileKind.file 3 none none)) []]
      defaultProgress 7).isSome = true :=
  (scan_error_handling_amended
    [FSEntry.mk false "c" none [],
     FSEntry.mk true "a" (some (MetaData.mk FileKind.file 3 none none)) []]
    defaultProgress 7).1.mpr (by decide)

/-- C8: over a fixed directory listing, the count pass sets `total_files`
to the number of readable immediate children and resets `scanned_files` to
zero before any entry is processed; at every intermediate state of the
build pass, and at completion, `scanned_files` does not exceed
`total_files`. -/
theorem scanned_files_le_total_files
    (children : List FSEntry) (p : ScanProgress) (now : Nat) :
    (startProgress children p).scanned_files = 0 ∧
    (startProgress children p).total_files = (okChildren children).length ∧
    (∀ q ∈ scanTrace now (okChildren children) (startProgress children p),
      q.scanned_files ≤ q.total_files) ∧
    (∀ es pf, scan_directory children p now = some (es, pf) →
      pf.scanned_files ≤ pf.total_files) := by
  refine ⟨by simp [startProgress], by simp [startProgress], ?_, ?_⟩
  · intro q hq
    have := scanTrace_bounds now (okChildren children) (startProgress children p) q hq
    have h1 : q.total_files = (okChildren children).length := by
      rw [this.1]; simp [startProgress]
    have h2 := this.2
    simp only [startProgress] at h2
    omega
  · intro es pf h
    simp only [scan_directory] at h
    have := scanLoop_eq_some now _ _ es pf h
    have h3 := this.2.2.1
    have h4 := this.2.2.2
    simp only [startProgress] at h3 h4
    omega

theorem scanned_files_le_total_files_witness :
    (ScanProgress.mk 1 1 (some "a") 3).scanned_files ≤
      (ScanProgress.mk 1 1 (some "a") 3).total_files :=
  (scanned_files_le_total_files
    [FSEntry.mk true "a" (some (MetaData.mk FileKind.file 3 (some 1) (some 2))) []]
    defaultProgress 0).2.2.2
    [FileEntry.mk "a" 3 1 2 false] (ScanProgress.mk 1 1 (some "a") 3) rfl

/-- C9: every entry that a completed scan marks as a directory reports as
its size the `get_dir_size` of the corresponding child, which equals the
recursive sum of the byte lengths of the regular files nested at any depth
beneath it — directories themselves contribute zero and every descendant
whose walk item or metadata cannot be read is silently excluded from the
sum (`dirFileSum`). -/
theorem dir_entry_size_eq_nested_file_sum
    (children : List FSEntry) (p : ScanProgress) (now : Nat)
    (es : List FileEntry) (pf : ScanProgress)
    (h : scan_directory children p now = some (es, pf)) :
    ∀ e ∈ es, e.is_dir = true →
      ∃ c ∈ children, c.readOk = true ∧ e.path = c.path ∧
        e.size = get_dir_size c ∧ get_dir_size c = dirFileSum c := by
  simp only [scan_directory] at h
  have hes := (scanLoop_eq_some now _ _ es pf h).1
  intro e he hdir
  rw [hes] at he
  obtain ⟨c, hc, rfl⟩ := List.mem_map.mp he
  have hmem := List.mem_filter.mp hc
  refine ⟨c, hmem.1, hmem.2, ?_, ?_, get_dir_size_eq_dirFileSum c⟩
  · cases hm : c.meta <;> simp [buildEntry, hm]
  · cases hm : c.meta with
    | none => simp [buildEntry, hm] at hdir
    | some m =>
      simp only [buildEntry, hm, decide_eq_true_eq] at hdir
      have hk : m.kind ≠ FileKind.file := by rw [hdir]; intro hcontra; cases hcontra
      simp [buildEntry, hm, childSize, hk]

theorem dir_entry_size_eq_nested_file_sum_witness :
    ∃ c ∈ [FSEntry.mk true "d" (some (MetaData.mk FileKind.dir 0 (some 1) (some 1)))
        [FSEntry.mk true "f" (some (MetaData.mk FileKind.file 7 none none)) [],
         FSEntry.mk false "g" none [],
         FSEntry.mk true "h" (some (MetaData.mk FileKind.dir 0 none none))
           [FSEntry.mk true "i" (some (MetaData.mk FileKind.file 5 none none)) []]]],
      c.readOk = true ∧ (FileEntry.mk "d" 12 1 1 true).path = c.path ∧
        (FileEntry.mk "d" 12 1 1 true).size = get_dir_size c ∧
        get_dir_size c = dirFileSum c :=
  dir_entry_size_eq_nested_file_sum
    [FSEntry.mk true "d" (some (MetaData.mk FileKind.dir 0 (some 1) (some 1)))
      [FSEntry.mk true "f" (some (MetaData.mk FileKind.file 7 none none)) [],
       FSEntry.mk false "g" none [],
       FSEntry.mk true "h" (some (MetaData.mk FileKind.dir 0 none none))
         [FSEntry.mk true "i" (some (MetaData.mk FileKind.file 5 none none)) []]]]
    defaultProgress 9 [FileEntry.mk "d" 12 1 1 true] (ScanProgress.mk 1 1 (some "d") 12)
    rfl (FileEntry.mk "d" 12 1 1 true) (by decide) rfl

/-- C10: a completed scan overwrites `total_files` and `scanned_files`
(both end at the number of readable children, independently of the input
progress record), but never resets `total_size`: the final `total_size` is
the input's value plus the sum of the produced entries' sizes, so a
progress record reused across scans accumulates `total_size`. -/
theorem scan_progress_frame_effect
    (children : List FSEntry) (p : ScanProgress) (now : Nat)
    (es : List FileEntry) (pf : ScanProgress)
    (h : scan_directory children p now = some (es, pf)) :
    pf.total_size = p.total_size + sumSizes es ∧
    pf.total_files = (okChildren children).length ∧
    pf.scanned_files = (okChildren children).length ∧
    (∀ children2 es2 pf2, scan_directory children2 pf now = some (es2, pf2) →
      pf2.total_size = p.total_size + sumSizes es + sumSizes es2) := by
  simp only [scan_directory] at h
  have h1 := scanLoop_eq_some now _ _ es pf h
  have ht : pf.total_size = p.total_size + sumSizes es := by
    rw [h1.2.1]; simp [startProgress]
  refine ⟨ht, ?_, ?_, ?_⟩
  · rw [h1.2.2.2]; simp [startProgress]
  · rw [h1.2.2.1]; simp [startProgress]
  · intro children2 es2 pf2 h2
    simp only [scan_directory] at h2
    have h3 := scanLoop_eq_some now _ _ es2 pf2 h2
    rw [h3.2.1]
    simp only [startProgress]
    omega

theorem scan_progress_frame_effect_witness :
    (ScanProgress.mk 1 1 (some "a") 6).total_size =
      defaultProgress.total_size + sumSizes [FileEntry.mk "a" 3 1 2 false] +
        sumSizes [FileEntry.mk "a" 3 1 2 false] :=
  (scan_progress_frame_effect
    [FSEntry.mk true "a" (some (MetaData.mk FileKind.file 3 (some 1) (some 2))) []]
    defaultProgress 0 [FileEntry.mk "a" 3 1 2 false] (ScanProgress.mk 1 1 (some "a") 3)
    rfl).2.2.2
    [FSEntry.mk true "a" (some (MetaData.mk FileKind.file 3 (some 1) (some 2))) []]
    [FileEntry.mk "a" 3 1 2 false] (ScanProgress.mk 1 1 (some "a") 6) rfl

/-! ### Treemap layout engine (src/ui/treemap.rs)

The `f32` arithmetic of the source is modelled by exact rational
arithmetic. -/

/-- `iced::Rectangle`. -/
structure Rect where
  x : ℚ
  y : ℚ
  width : ℚ
  height : ℚ
deriving DecidableEq, Repr

/-- `iced::Point`. -/
structure Point where
  x : ℚ
  y : ℚ
deriving DecidableEq, Repr

/-- `ItemRect` (treemap.rs lines 16–20). -/
structure ItemRect where
  entry : FileEntry
  bounds : Rect
deriving DecidableEq, Repr

/-- The layout-relevant state of `TreeMap` (treemap.rs lines 10–14). -/
structure TreeMap where
  entries : List FileEntry
  current_path : String
  rects : List ItemRect
deriving DecidableEq, Repr

/-- The body of the `while` loop of `calculate_row` (treemap.rs lines
88–100): `rowSize` is the running `row_size`, `started` tracks
`!row.is_empty()`.  The aspect value for the enlarged row is
`bounds.width / (new_row_size / total_size * bounds.height)` where
`bounds` is the remaining area and `total_size` the remaining size. -/
def calcRowAux (remW remH remSize : ℚ) :
    List FileEntry → ℚ → Bool → List FileEntry × List FileEntry
  | [], _, _ => ([], [])
  | e :: rest, rowSize, started =>
    let newRowSize := rowSize + (e.size : ℚ)
    let aspect := remW / (newRowSize / remSize * remH)
    if started = true ∧ aspect < 1 then ([], e :: rest)
    else
      let pr := calcRowAux remW remH remSize rest newRowSize true
      (e :: pr.1, pr.2)

/-- `TreeMap::calculate_row` (treemap.rs lines 79–103): split the
remaining entries into the next row and the rest. -/
def calculate_row (entries : List FileEntry) (rem : Rect) (remSize : ℚ) :
    List FileEntry × List FileEntry :=
  calcRowAux rem.width rem.height remSize entries 0 false

/-- The row-emission loop of `update_layout` (treemap.rs lines 53–69):
each row member gets width `(entry.size / row_size) * remaining_width`
(clamped below at 0), a rectangle is pushed only when that width is
positive, and `x` advances by the emitted width. -/
def placeRow (rowSize y h W : ℚ) : List FileEntry → ℚ → List ItemRect
  | [], _ => []
  | e :: es, x =>
    let w := max ((e.size : ℚ) / rowSize * W) 0
    if 0 < w then
      ⟨e, ⟨x, y, w, h⟩⟩ :: placeRow rowSize y h W es (x + w)
    else placeRow rowSize y h W es x

/-- Advancing the remaining area past a finalized row (treemap.rs lines
71–72): `y` moves down by the row height and `height` shrinks by it. -/
def shiftRect (rem : Rect) (h : ℚ) : Rect :=
  ⟨rem.x, rem.y + h, rem.width, rem.height - h⟩

/-- The outer `while` loop of `update_layout` (treemap.rs lines 46–76),
with an explicit fuel bounding the iteration count (the loop consumes at
least one entry per iteration, so `entries.length + 1` fuel reproduces the
source loop exactly).  `total` is the original total size, `bH` the
original `bounds.height`. -/
def layoutLoop (total bH : ℚ) : Nat → List FileEntry → Rect → List ItemRect
  | 0, _, _ => []
  | fuel + 1, entries, rem =>
    if entries = [] then []
    else if 0 < rem.height ∧ 0 < rem.width then
      let remSize : ℚ := (sumSizes entries : ℚ)
      let pr := calculate_row entries rem remSize
      if pr.1 = [] then layoutLoop total bH fuel pr.2 rem
      else
        let rowSize : ℚ := (sumSizes pr.1 : ℚ)
        let rowHeight := min (rowSize / total * bH) rem.height
        placeRow rowSize rem.y rowHeight rem.width pr.1 rem.x ++
          layoutLoop total bH fuel pr.2 (shiftRect rem rowHeight)
    else []

/-- The sort order used by `update_layout` (treemap.rs line 44): the
comparator `b.size.cmp(&a.size)`, i.e. descending by size. -/
def bySizeDesc (a b : FileEntry) : Prop := b.size ≤ a.size

instance : DecidableRel bySizeDesc := fun a b => Nat.decLe b.size a.size

instance : IsTotal FileEntry bySizeDesc := ⟨fun a b => le_total b.size a.size⟩

instance : IsTrans FileEntry bySizeDesc := ⟨fun _ _ _ h1 h2 => le_trans h2 h1⟩

/-- `TreeMap::update_layout` (treemap.rs lines 31–77).  The early return
on an empty entry list happens before `self.rects.clear()`, so it leaves
any previously computed rectangles in place.  `sort_by(|a, b|
b.size.cmp(&a.size))` is Rust's stable sort by descending size; the stable
sort of a list under a total preorder is unique, and it is modelled here
by insertion sort, which computes that same stable result. -/
def update_layout (st : TreeMap) (bounds : Rect) : TreeMap :=
  if st.entries = [] then st
  else
    let total : ℚ := (sumSizes st.entries : ℚ)
    if total = 0 then { st with rects := [] }
    else
      let sorted := st.entries.insertionSort bySizeDesc
      { st with rects := layoutLoop total bounds.height (sorted.length + 1) sorted bounds }

/-- Whether `position` lies within `bounds` with edges included — the
containment predicate of `find_item_at` (treemap.rs lines 107–109). -/
def inRect (r : Rect) (pos : Point) : Prop :=
  r.x ≤ pos.x ∧ pos.x ≤ r.x + r.width ∧ r.y ≤ pos.y ∧ pos.y ≤ r.y + r.height

instance (r : Rect) (pos : Point) : Decidable (inRect r pos) := by
  unfold inRect
  infer_instance

/-- `TreeMap::find_item_at` (treemap.rs lines 105–111): the first placed
rectangle containing the position, edges included. -/
def find_item_at (st : TreeMap) (pos : Point) : Option ItemRect :=
  st.rects.find? (fun item => decide (inRect item.bounds pos))

/-! ### Degenerate layout inputs (C3) -/

theorem layoutLoop_of_nonpos (total bH : ℚ) (fuel : Nat) (entries : List FileEntry)
    (rem : Rect) (hb : rem.width ≤ 0 ∨ rem.height ≤ 0) :
    layoutLoop total bH fuel entries rem = [] := by
  cases fuel with
  | zero => rfl
  | succ n =>
    rw [layoutLoop]
    by_cases he : entries = []
    · simp [he]
    · have hcond : ¬(0 < rem.height ∧ 0 < rem.width) := by
        rcases hb with h | h
        · intro hc; exact absurd hc.2 (not_lt.mpr h)
        · intro hc; exact absurd hc.1 (not_lt.mpr h)
      simp [he, hcond]

/-- C3 counterexample: with an empty entry list, `update_layout` returns
before `self.rects.clear()` runs (treemap.rs lines 32–36), so a stale
rectangle from an earlier layout survives and the resulting `rects` is not
empty. -/
theorem layout_empty_entries_cex :
    (update_layout
      (TreeMap.mk [] "r"
        [ItemRect.mk (FileEntry.mk "a" 1 0 0 false) (Rect.mk 0 0 1 1)])
      (Rect.mk 0 0 10 10)).rects ≠ [] := by decide

/-- C3 amended: with nonempty entries, a zero size sum or a non-positive
bounds dimension yields the empty rectangle sequence as a value (not an
error); with an empty entry list, `update_layout` returns with `rects`
untouched, so the result is empty only when `rects` was already empty
(as on a freshly constructed `TreeMap`). -/
theorem layout_degenerate_inputs (st : TreeMap) (bounds : Rect) :
    (st.entries = [] → (update_layout st bounds).rects = st.rects) ∧
    (st.entries ≠ [] → sumSizes st.entries = 0 → (update_layout st bounds).rects = []) ∧
    (st.entries ≠ [] → (bounds.width ≤ 0 ∨ bounds.height ≤ 0) →
      (update_layout st bounds).rects = []) := by
  refine ⟨fun h => by simp [update_layout, h], fun h h0 => by simp [update_layout, h, h0], ?_⟩
  intro h hb
  by_cases h0 : sumSizes st.entries = 0
  · simp [update_layout, h, h0]
  · have h0' : ¬((sumSizes st.entries : ℚ) = 0) := by
      simpa using h0
    simp only [update_layout, if_neg h, if_neg h0']
    exact layoutLoop_of_nonpos _ _ _ _ _ hb

theorem layout_degenerate_inputs_witness :
    (update_layout (TreeMap.mk [FileEntry.mk "z" 0 0 0 false] "r" [])
      (Rect.mk 0 0 10 10)).rects = [] :=
  (layout_degenerate_inputs (TreeMap.mk [FileEntry.mk "z" 0 0 0 false] "r" [])
    (Rect.mk 0 0 10 10)).2.1 (by decide) rfl

/-! ### Row building is greedy (C5) -/

/-- The aspect value `calculate_row` computes when it considers enlarging
the row to total size `nrs`: the remaining width over the height the
enlarged row would get. -/
def aspectVal (rem : Rect) (remSize nrs : ℚ) : ℚ :=
  rem.width / (nrs / remSize * rem.height)

theorem calcRowAux_spec (remW remH remSize : ℚ) :
    ∀ (l : List FileEntry) (s : ℚ) (b : Bool),
      ∃ k, k ≤ l.length ∧
        (calcRowAux remW remH remSize l s b).1 = l.take k ∧
        (calcRowAux remW remH remSize l s b).2 = l.drop k ∧
        ((b = false ∧ l ≠ []) → 1 ≤ k) ∧
        (∀ i < k, (b = true ∨ 1 ≤ i) →
          ¬ remW / ((s + (sumSizes (l.take (i+1)) : ℚ)) / remSize * remH) < 1) ∧
        (k < l.length → (b = true ∨ 1 ≤ k) →
          remW / ((s + (sumSizes (l.take (k+1)) : ℚ)) / remSize * remH) < 1)
  | [], s, b => by
    refine ⟨0, by simp, by simp [calcRowAux], by simp [calcRowAux], by simp, ?_, ?_⟩
    · intro i hi; omega
    · intro hlt; simp at hlt
  | e :: rest, s, b => by
    by_cases hstop : b = true ∧ remW / ((s + (e.size : ℚ)) / remSize * remH) < 1
    · refine ⟨0, by simp, ?_, ?_, ?_, ?_, ?_⟩
      · rw [calcRowAux]
        simp [if_pos hstop]
      · rw [calcRowAux]
        simp [if_pos hstop]
      · intro hb; rw [hstop.1] at hb; exact absurd hb.1 (by simp)
      · intro i hi; omega
      · intro _ _
        simpa [sumSizes] using hstop.2
    · obtain ⟨k, hk, h1, h2, _, h5, h6⟩ :=
        calcRowAux_spec remW remH remSize rest (s + (e.size : ℚ)) true
      have hunfold :
          calcRowAux remW remH remSize (e :: rest) s b =
            (e :: (calcRowAux remW remH remSize rest (s + (e.size : ℚ)) true).1,
             (calcRowAux remW remH remSize rest (s + (e.size : ℚ)) true).2) := by
        rw [calcRowAux]
        simp only [if_neg hstop]
      refine ⟨k + 1, by simpa using Nat.succ_le_succ hk, ?_, ?_, fun _ => by omega, ?_, ?_⟩
      · rw [hunfold, h1]; rfl
      · rw [hunfold, h2]; rfl
      · intro i hi hcond
        cases i with
        | zero =>
          rcases hcond with hb | h1le
          · intro hlt
            exact hstop ⟨hb, by simpa [sumSizes] using hlt⟩
          · omega
        | succ j =>
          have hj : j < k := by omega
          have := h5 j hj (Or.inl rfl)
          intro hlt
          apply this
          have hsum : sumSizes ((e :: rest).take (j + 2)) =
              e.size + sumSizes (rest.take (j + 1)) := by
            simp [sumSizes]
          rw [hsum] at hlt
          convert hlt using 3
          push_cast
          ring
      · intro hklt _
        have hklt' : k < rest.length := by simpa using hklt
        have := h6 hklt' (Or.inl rfl)
        have hsum : sumSizes ((e :: rest).take (k + 2)) =
            e.size + sumSizes (rest.take (k + 1)) := by
          simp [sumSizes]
        rw [hsum]
        convert this using 3
        push_cast
        ring

/-- C5: `calculate_row` adds entries greedily: it splits its input into a
prefix (the row) and the remaining suffix; the first entry is always
accepted; every later entry was accepted only while the aspect value for
the enlarged row stayed at least 1; and the row stops exactly when the
aspect value including the next entry falls below 1. -/
theorem calculate_row_greedy (entries : List FileEntry) (rem : Rect) (remSize : ℚ)
    (hne : entries ≠ []) :
    ∃ k, 1 ≤ k ∧ k ≤ entries.length ∧
      (calculate_row entries rem remSize).1 = entries.take k ∧
      (calculate_row entries rem remSize).2 = entries.drop k ∧
      (∀ i, 1 ≤ i → i < k →
        ¬ aspectVal rem remSize (sumSizes (entries.take (i+1)) : ℚ) < 1) ∧
      (k < entries.length →
        aspectVal rem remSize (sumSizes (entries.take (k+1)) : ℚ) < 1) := by
  obtain ⟨k, hk, h1, h2, h4, h5, h6⟩ :=
    calcRowAux_spec rem.width rem.height remSize entries 0 false
  have hk1 : 1 ≤ k := h4 ⟨rfl, hne⟩
  refine ⟨k, hk1, hk, h1, h2, ?_, ?_⟩
  · intro i h1le hik
    have := h5 i hik (Or.inr h1le)
    simpa [aspectVal] using this
  · intro hklt
    have := h6 hklt (Or.inr hk1)
    simpa [aspectVal] using this

theorem calculate_row_greedy_witness :
    ∃ k, 1 ≤ k ∧ k ≤ 3 ∧
      (calculate_row
        [FileEntry.mk "A" 600 0 0 false, FileEntry.mk "B" 300 0 0 false,
         FileEntry.mk "C" 100 0 0 false] (Rect.mk 0 0 1000 100) 1000).1 =
        ([FileEntry.mk "A" 600 0 0 false, FileEntry.mk "B" 300 0 0 false,
          FileEntry.mk "C" 100 0 0 false].take k) ∧
      (calculate_row
        [FileEntry.mk "A" 600 0 0 false, FileEntry.mk "B" 300 0 0 false,
         FileEntry.mk "C" 100 0 0 false] (Rect.mk 0 0 1000 100) 1000).2 =
        ([FileEntry.mk "A" 600 0 0 false, FileEntry.mk "B" 300 0 0 false,
          FileEntry.mk "C" 100 0 0 false].drop k) ∧
      (∀ i, 1 ≤ i → i < k →
        ¬ aspectVal (Rect.mk 0 0 1000 100) 1000
            (sumSizes ([FileEntry.mk "A" 600 0 0 false, FileEntry.mk "B" 300 0 0 false,
              FileEntry.mk "C" 100 0 0 false].take (i+1)) : ℚ) < 1) ∧
      (k < 3 →
        aspectVal (Rect.mk 0 0 1000 100) 1000
          (sumSizes ([FileEntry.mk "A" 600 0 0 false, FileEntry.mk "B" 300 0 0 false,
            FileEntry.mk "C" 100 0 0 false].take (k+1)) : ℚ) < 1) :=
  calculate_row_greedy
    [FileEntry.mk "A" 600 0 0 false, FileEntry.mk "B" 300 0 0 false,
     FileEntry.mk "C" 100 0 0 false] (Rect.mk 0 0 1000 100) 1000 (by decide)

/-! ### Structure of the produced layout -/

/-- A point strictly inside a rectangle (its open interior). -/
def strictlyInside (r : Rect) (pos : Point) : Prop :=
  r.x < pos.x ∧ pos.x < r.x + r.width ∧ r.y < pos.y ∧ pos.y < r.y + r.height

/-- Separation of two placed rectangles: either `a` ends (horizontally)
before `b` starts, or `a` ends (vertically) before `b` starts.  Rectangles
emitted by the layout loop satisfy this in emission order. -/
def rowSep (a b : ItemRect) : Prop :=
  a.bounds.x + a.bounds.width ≤ b.bounds.x ∨ a.bounds.y + a.bounds.height ≤ b.bounds.y

/-- The center point of a rectangle. -/
def centerOf (r : Rect) : Point :=
  ⟨r.x + r.width / 2, r.y + r.height / 2⟩

/-- Total area of a list of placed rectangles. -/
def areaSum (l : List ItemRect) : ℚ :=
  (l.map (fun r => r.bounds.width * r.bounds.height)).sum

theorem sumSizes_cons (e : FileEntry) (l : List FileEntry) :
    sumSizes (e :: l) = e.size + sumSizes l := by
  simp [sumSizes]

theorem sumSizes_append (l1 l2 : List FileEntry) :
    sumSizes (l1 ++ l2) = sumSizes l1 + sumSizes l2 := by
  simp [sumSizes]

theorem calcRowAux_fst_append_snd (remW remH remSize : ℚ) :
    ∀ (l : List FileEntry) (s : ℚ) (b : Bool),
      (calcRowAux remW remH remSize l s b).1 ++ (calcRowAux remW remH remSize l s b).2 = l
  | [], _, _ => by simp [calcRowAux]
  | e :: rest, s, b => by
    rw [calcRowAux]
    by_cases hstop : b = true ∧ remW / ((s + (e.size : ℚ)) / remSize * remH) < 1
    · simp [if_pos hstop]
    · simp only [if_neg hstop, List.cons_append, List.cons.injEq, true_and]
      exact calcRowAux_fst_append_snd remW remH remSize rest (s + (e.size : ℚ)) true

theorem calculate_row_fst_append_snd (entries : List FileEntry) (rem : Rect) (remSize : ℚ) :
    (calculate_row entries rem remSize).1 ++ (calculate_row entries rem remSize).2 = entries :=
  calcRowAux_fst_append_snd rem.width rem.height remSize entries 0 false

theorem calculate_row_fst_ne_nil (entries : List FileEntry) (rem : Rect) (remSize : ℚ)
    (hne : entries ≠ []) : (calculate_row entries rem remSize).1 ≠ [] := by
  cases entries with
  | nil => exact absurd rfl hne
  | cons e rest =>
    rw [calculate_row, calcRowAux]
    have : ¬(false = true ∧
        rem.width / ((0 + (e.size : ℚ)) / remSize * rem.height) < 1) := by
      intro hc; cases hc.1
    simp [if_neg this]

theorem calculate_row_snd_length (entries : List FileEntry) (rem : Rect) (remSize : ℚ)
    (hne : entries ≠ []) :
    (calculate_row entries rem remSize).2.length < entries.length := by
  have hsplit := calculate_row_fst_append_snd entries rem remSize
  have hrow := calculate_row_fst_ne_nil entries rem remSize hne
  have hlen : (calculate_row entries rem remSize).1.length +
      (calculate_row entries rem remSize).2.length = entries.length := by
    rw [← List.length_append, hsplit]
  have : 0 < (calculate_row entries rem remSize).1.length :=
    List.length_pos.mpr hrow
  omega

theorem placeRow_mem (rs y ht W : ℚ) :
    ∀ (row : List FileEntry) (x : ℚ), ∀ r ∈ placeRow rs y ht W row x,
      r.bounds.y = y ∧ r.bounds.height = ht ∧ 0 < r.bounds.width ∧ x ≤ r.bounds.x
  | [], x => by simp [placeRow]
  | e :: es, x => by
    intro r hr
    rw [placeRow] at hr
    by_cases hw : 0 < max ((e.size : ℚ) / rs * W) 0
    · rw [if_pos hw] at hr
      rcases List.mem_cons.mp hr with h | h
      · subst h; exact ⟨rfl, rfl, hw, le_refl x⟩
      · obtain ⟨h1, h2, h3, h4⟩ :=
          placeRow_mem rs y ht W es (x + max ((e.size : ℚ) / rs * W) 0) r h
        exact ⟨h1, h2, h3, le_trans (by linarith) h4⟩
    · rw [if_neg hw] at hr
      exact placeRow_mem rs y ht W es x r hr

theorem placeRow_pairwise (rs y ht W : ℚ) :
    ∀ (row : List FileEntry) (x : ℚ),
      List.Pairwise (fun a b => a.bounds.x + a.bounds.width ≤ b.bounds.x)
        (placeRow rs y ht W row x)
  | [], x => by simp [placeRow]
  | e :: es, x => by
    rw [placeRow]
    by_cases hw : 0 < max ((e.size : ℚ) / rs * W) 0
    · rw [if_pos hw]
      refine List.Pairwise.cons ?_ (placeRow_pairwise rs y ht W es _)
      intro b hb
      have := (placeRow_mem rs y ht W es (x + max ((e.size : ℚ) / rs * W) 0) b hb).2.2.2
      simpa using this
    · rw [if_neg hw]
      exact placeRow_pairwise rs y ht W es x

theorem placeRow_rs_zero (y ht W : ℚ) :
    ∀ (row : List FileEntry) (x : ℚ), placeRow 0 y ht W row x = []
  | [], _ => rfl
  | e :: es, x => by
    rw [placeRow]
    have hz : max ((e.size : ℚ) / 0 * W) 0 = 0 := by
      simp
    rw [hz]
    simp only [lt_self_iff_false, if_false]
    exact placeRow_rs_zero y ht W es x

theorem placeRow_mem_rs_pos (rs y ht W : ℚ) (row : List FileEntry) (x : ℚ)
    (r : ItemRect) (hr : r ∈ placeRow rs y ht W row x) (hrs : 0 ≤ rs) : 0 < rs := by
  rcases lt_or_eq_of_le hrs with h | h
  · exact h
  · rw [← h, placeRow_rs_zero] at hr
    cases hr

theorem placeRow_areaSum (rs y ht W : ℚ) (hrs : 0 < rs) (hW : 0 < W) :
    ∀ (row : List FileEntry) (x : ℚ), (∀ e ∈ row, (0:ℚ) ≤ (e.size : ℚ)) →
      areaSum (placeRow rs y ht W row x) = (sumSizes row : ℚ) / rs * W * ht
  | [], x, _ => by simp [placeRow, areaSum, sumSizes]
  | e :: es, x, hnn => by
    rw [placeRow]
    have hraw : (0:ℚ) ≤ (e.size : ℚ) / rs * W := by
      apply mul_nonneg (div_nonneg (hnn e (by simp)) (le_of_lt hrs)) (le_of_lt hW)
    have hmax : max ((e.size : ℚ) / rs * W) 0 = (e.size : ℚ) / rs * W :=
      max_eq_left hraw
    rw [hmax]
    have hes : ∀ e' ∈ es, (0:ℚ) ≤ (e'.size : ℚ) :=
      fun e' he' => hnn e' (List.mem_cons_of_mem _ he')
    by_cases hw : 0 < (e.size : ℚ) / rs * W
    · rw [if_pos hw]
      have := placeRow_areaSum rs y ht W hrs hW es (x + (e.size : ℚ) / rs * W) hes
      simp only [areaSum, List.map_cons, List.sum_cons] at this ⊢
      rw [this, sumSizes_cons]
      push_cast
      ring
    · rw [if_neg hw]
      have hzero : (e.size : ℚ) / rs * W = 0 := le_antisymm (not_lt.mp hw) hraw
      have := placeRow_areaSum rs y ht W hrs hW es x hes
      rw [this, sumSizes_cons]
      push_cast
      have : ((e.size : ℚ) + (sumSizes es : ℚ)) / rs * W * ht =
          (e.size : ℚ) / rs * W * ht + (sumSizes es : ℚ) / rs * W * ht := by ring
      rw [this, hzero]
      ring

theorem layoutLoop_geom (total bH : ℚ) (ht : 0 < total) (hb : 0 < bH) :
    ∀ (fuel : Nat) (entries : List FileEntry) (rem : Rect),
      (∀ r ∈ layoutLoop total bH fuel entries rem,
        rem.y ≤ r.bounds.y ∧ 0 < r.bounds.width ∧ 0 < r.bounds.height) ∧
      List.Pairwise rowSep (layoutLoop total bH fuel entries rem) := by
  intro fuel
  induction fuel with
  | zero => intro entries rem; simp [layoutLoop]
  | succ n ih =>
    intro entries rem
    by_cases he : entries = []
    · simp [layoutLoop, he]
    · by_cases hg : 0 < rem.height ∧ 0 < rem.width
      · simp only [layoutLoop, if_neg he, if_pos hg]
        rcases hpr : calculate_row entries rem ((sumSizes entries : ℚ)) with ⟨row, rest⟩
        simp only [hpr]
        by_cases hrow : row = []
        · simp only [if_pos hrow]
          exact ih rest rem
        · simp only [if_neg hrow]
          have hrowH0 : 0 ≤ min ((sumSizes row : ℚ) / total * bH) rem.height :=
            le_min
              (mul_nonneg (div_nonneg (Nat.cast_nonneg _) (le_of_lt ht)) (le_of_lt hb))
              (le_of_lt hg.1)
          constructor
          · intro r hr
            rcases List.mem_append.mp hr with h | h
            · obtain ⟨h1, h2, h3, _⟩ := placeRow_mem _ _ _ _ _ _ r h
              have hRSpos : (0:ℚ) < (sumSizes row : ℚ) :=
                placeRow_mem_rs_pos _ _ _ _ _ _ r h (Nat.cast_nonneg _)
              have hrowH : 0 < min ((sumSizes row : ℚ) / total * bH) rem.height :=
                lt_min (mul_pos (div_pos hRSpos ht) hb) hg.1
              exact ⟨le_of_eq h1.symm, h3, by rw [h2]; exact hrowH⟩
            · obtain ⟨h1, h2, h3⟩ :=
                (ih rest (shiftRect rem (min ((sumSizes row : ℚ) / total * bH) rem.height))).1
                  r h
              refine ⟨?_, h2, h3⟩
              have hy : (shiftRect rem
                  (min ((sumSizes row : ℚ) / total * bH) rem.height)).y =
                  rem.y + min ((sumSizes row : ℚ) / total * bH) rem.height := rfl
              rw [hy] at h1
              linarith
          · rw [List.pairwise_append]
            refine ⟨(placeRow_pairwise _ _ _ _ _ _).imp (fun h => Or.inl h),
              (ih rest _).2, ?_⟩
            intro a ha b hb'
            obtain ⟨ha1, ha2, _, _⟩ := placeRow_mem _ _ _ _ _ _ a ha
            have hb1 :=
              ((ih rest (shiftRect rem
                (min ((sumSizes row : ℚ) / total * bH) rem.height))).1 b hb').1
            right
            rw [ha1, ha2]
            exact hb1
      · simp [layoutLoop, he, hg]

theorem layoutLoop_areaSum (total bH : ℚ) (ht : 0 < total) (hb : 0 < bH) :
    ∀ (fuel : Nat) (entries : List FileEntry) (rem : Rect),
      entries.length < fuel → 0 < rem.width →
      rem.height = (sumSizes entries : ℚ) / total * bH →
      areaSum (layoutLoop total bH fuel entries rem) = rem.width * rem.height := by
  intro fuel
  induction fuel with
  | zero => intro entries rem hlen; omega
  | succ n ih =>
    intro entries rem hlen hw hinv
    by_cases he : entries = []
    · subst he
      simp only [layoutLoop, if_pos rfl]
      have : rem.height = 0 := by rw [hinv]; simp [sumSizes]
      rw [this]
      simp [areaSum]
    · by_cases hg : 0 < rem.height ∧ 0 < rem.width
      · simp only [layoutLoop, if_neg he, if_pos hg]
        rcases hpr : calculate_row entries rem ((sumSizes entries : ℚ)) with ⟨row, rest⟩
        simp only [hpr]
        have hrow : row ≠ [] := by
          have := calculate_row_fst_ne_nil entries rem ((sumSizes entries : ℚ)) he
          rw [hpr] at this
          exact this
        rw [if_neg hrow]
        have hsplit : row ++ rest = entries := by
          have := calculate_row_fst_append_snd entries rem ((sumSizes entries : ℚ))
          rw [hpr] at this
          exact this
        have hsumN : sumSizes entries = sumSizes row + sumSizes rest := by
          rw [← hsplit, sumSizes_append]
        have hrestlen : rest.length < n := by
          have h1 := calculate_row_snd_length entries rem ((sumSizes entries : ℚ)) he
          rw [hpr] at h1
          simp only at h1
          omega
        have hrsle : ((sumSizes row : ℚ)) / total * bH ≤ rem.height := by
          rw [hinv]
          have hle : ((sumSizes row : ℚ)) ≤ ((sumSizes entries : ℚ)) := by
            exact_mod_cast Nat.le.intro hsumN.symm
          exact mul_le_mul_of_nonneg_right
            ((div_le_div_iff_of_pos_right ht).mpr hle) (le_of_lt hb)
        have hmin : min ((sumSizes row : ℚ) / total * bH) rem.height =
            (sumSizes row : ℚ) / total * bH := min_eq_left hrsle
        rw [hmin]
        have hinvrest : (shiftRect rem ((sumSizes row : ℚ) / total * bH)).height =
            (sumSizes rest : ℚ) / total * bH := by
          show rem.height - (sumSizes row : ℚ) / total * bH = _
          rw [hinv, hsumN]
          push_cast
          ring
        have hwid : (0:ℚ) < (shiftRect rem ((sumSizes row : ℚ) / total * bH)).width := hw
        have htail := ih rest (shiftRect rem ((sumSizes row : ℚ) / total * bH))
          hrestlen hwid hinvrest
        have happ : areaSum (placeRow ((sumSizes row : ℚ)) rem.y
              ((sumSizes row : ℚ) / total * bH) rem.width row rem.x ++
            layoutLoop total bH n rest
              (shiftRect rem ((sumSizes row : ℚ) / total * bH))) =
            areaSum (placeRow ((sumSizes row : ℚ)) rem.y
              ((sumSizes row : ℚ) / total * bH) rem.width row rem.x) +
            areaSum (layoutLoop total bH n rest
              (shiftRect rem ((sumSizes row : ℚ) / total * bH))) := by
          simp [areaSum]
        rw [happ, htail]
        rcases Nat.eq_zero_or_pos (sumSizes row) with hz | hp
        · have hzQ : ((sumSizes row : ℚ)) = 0 := by rw [hz]; simp
          rw [hzQ, placeRow_rs_zero]
          simp only [areaSum, List.map_nil, List.sum_nil, shiftRect, zero_add, zero_div,
            zero_mul, sub_zero]
        · have hppos : (0:ℚ) < (sumSizes row : ℚ) := by exact_mod_cast hp
          rw [placeRow_areaSum ((sumSizes row : ℚ)) rem.y
            ((sumSizes row : ℚ) / total * bH) rem.width hppos hw row rem.x
            (fun e _ => Nat.cast_nonneg _)]
          rw [div_self (ne_of_gt hppos)]
          simp only [shiftRect, one_mul]
          ring
      · have hh0 : rem.height = 0 := by
          have hnonneg : 0 ≤ rem.height := by
            rw [hinv]
            exact mul_nonneg (div_nonneg (Nat.cast_nonneg _) (le_of_lt ht)) (le_of_lt hb)
          have : ¬ 0 < rem.height := fun hc => hg ⟨hc, hw⟩
          linarith
        simp [layoutLoop, he, hg, areaSum, hh0]

/-- C4: for every non-degenerate layout call (nonempty entries, positive
size sum, positive bounds dimensions), the areas of the rectangles
produced by `update_layout` sum exactly to `bounds.width * bounds.height`
(in the exact-arithmetic model the dropped rectangles have width exactly
zero, so no rounding slack remains), and the interiors of the produced
rectangles are pairwise disjoint. -/
theorem layout_area_conservation_no_overlap (st : TreeMap) (bounds : Rect)
    (hne : st.entries ≠ []) (hpos : 0 < sumSizes st.entries)
    (hw : 0 < bounds.width) (hh : 0 < bounds.height) :
    areaSum (update_layout st bounds).rects = bounds.width * bounds.height ∧
    List.Pairwise
      (fun a b => ∀ pos : Point,
        ¬(strictlyInside a.bounds pos ∧ strictlyInside b.bounds pos))
      (update_layout st bounds).rects := by
  have htot : ¬((sumSizes st.entries : ℚ)) = 0 := by
    have : sumSizes st.entries ≠ 0 := Nat.pos_iff_ne_zero.mp hpos
    exact_mod_cast this
  have htotpos : (0:ℚ) < (sumSizes st.entries : ℚ) := by exact_mod_cast hpos
  simp only [update_layout, if_neg hne, if_neg htot]
  have hperm : (st.entries.insertionSort bySizeDesc).Perm st.entries :=
    List.perm_insertionSort bySizeDesc st.entries
  have hsum : sumSizes (st.entries.insertionSort bySizeDesc) =
      sumSizes st.entries := by
    simpa [sumSizes] using (hperm.map FileEntry.size).sum_eq
  constructor
  · have hinv : bounds.height =
        ((sumSizes (st.entries.insertionSort bySizeDesc) : ℚ)) /
          ((sumSizes st.entries : ℚ)) * bounds.height := by
      rw [hsum, div_self htot, one_mul]
    exact layoutLoop_areaSum ((sumSizes st.entries : ℚ)) bounds.height htotpos hh
      _ _ bounds (Nat.lt_succ_self _) hw hinv
  · have hgeom := (layoutLoop_geom ((sumSizes st.entries : ℚ)) bounds.height htotpos hh
      ((st.entries.insertionSort bySizeDesc).length + 1)
      (st.entries.insertionSort bySizeDesc) bounds).2
    refine hgeom.imp ?_
    intro a b hab pos hcontra
    obtain ⟨hA, hB⟩ := hcontra
    obtain ⟨hA1, hA2, hA3, hA4⟩ := hA
    obtain ⟨hB1, hB2, hB3, hB4⟩ := hB
    rcases hab with h | h
    · linarith
    · linarith

theorem layout_area_conservation_no_overlap_witness :
    areaSum (update_layout
      (TreeMap.mk [FileEntry.mk "A" 600 0 0 false, FileEntry.mk "B" 300 0 0 false,
        FileEntry.mk "C" 100 0 0 false] "r" []) (Rect.mk 0 0 1000 100)).rects =
      (Rect.mk 0 0 1000 100).width * (Rect.mk 0 0 1000 100).height ∧
    List.Pairwise
      (fun a b => ∀ pos : Point,
        ¬(strictlyInside a.bounds pos ∧ strictlyInside b.bounds pos))
      (update_layout
        (TreeMap.mk [FileEntry.mk "A" 600 0 0 false, FileEntry.mk "B" 300 0 0 false,
          FileEntry.mk "C" 100 0 0 false] "r" []) (Rect.mk 0 0 1000 100)).rects :=
  layout_area_conservation_no_overlap
    (TreeMap.mk [FileEntry.mk "A" 600 0 0 false, FileEntry.mk "B" 300 0 0 false,
      FileEntry.mk "C" 100 0 0 false] "r" []) (Rect.mk 0 0 1000 100)
    (by decide) (by decide) (by decide) (by decide)

theorem find?_center_of_sep (l : List ItemRect)
    (hpos : ∀ r ∈ l, 0 < r.bounds.width ∧ 0 < r.bounds.height)
    (hpw : List.Pairwise rowSep l) (it : ItemRect) (hit : it ∈ l) :
    l.find? (fun r => decide (inRect r.bounds (centerOf it.bounds))) = some it := by
  induction l with
  | nil => cases hit
  | cons a l ih =>
    rcases List.mem_cons.mp hit with h | h
    · subst h
      have hc : inRect it.bounds (centerOf it.bounds) := by
        obtain ⟨hwp, hhp⟩ := hpos it (List.mem_cons_self it l)
        simp only [inRect, centerOf]
        refine ⟨by linarith, by linarith, by linarith, by linarith⟩
      rw [List.find?_cons_of_pos _ (by simpa using hc)]
    · have hsep : a.bounds.x + a.bounds.width ≤ it.bounds.x ∨
          a.bounds.y + a.bounds.height ≤ it.bounds.y :=
        (List.pairwise_cons.mp hpw).1 it h
      obtain ⟨hwp, hhp⟩ := hpos it (List.mem_cons_of_mem _ h)
      have hnc : ¬ inRect a.bounds (centerOf it.bounds) := by
        intro hcontra
        obtain ⟨h1, h2, h3, h4⟩ := hcontra
        simp only [centerOf] at h1 h2 h3 h4
        rcases hsep with hs | hs
        · linarith
        · linarith
      rw [List.find?_cons_of_neg _ (by simpa using hnc)]
      exact ih (fun r hr => hpos r (List.mem_cons_of_mem _ hr))
        (List.pairwise_cons.mp hpw).2 h

/-- C7: `find_item_at` returns the first placed rectangle, in emission
order, whose bounds contain the point with the boundary edges included,
and `none` when no placed rectangle contains the point; moreover every
rectangle placed by a non-degenerate `update_layout` has positive width
and height, and the point at its center resolves through `find_item_at`
back to that same rectangle and hence to that entry's path. -/
theorem find_item_at_first_match_and_center (st : TreeMap) (bounds : Rect)
    (hne : st.entries ≠ []) (hpos : 0 < sumSizes st.entries)
    (_hw : 0 < bounds.width) (hh : 0 < bounds.height) :
    (∀ pos : Point,
      (find_item_at st pos = none ↔ ∀ r ∈ st.rects, ¬ inRect r.bounds pos) ∧
      (∀ it, find_item_at st pos = some it →
        inRect it.bounds pos ∧
        ∃ l1 l2, st.rects = l1 ++ it :: l2 ∧ ∀ r ∈ l1, ¬ inRect r.bounds pos)) ∧
    (∀ it ∈ (update_layout st bounds).rects,
      (0 < it.bounds.width ∧ 0 < it.bounds.height) ∧
      find_item_at (update_layout st bounds) (centerOf it.bounds) = some it ∧
      (∀ it', find_item_at (update_layout st bounds) (centerOf it.bounds) = some it' →
        it'.entry.path = it.entry.path)) := by
  constructor
  · intro pos
    constructor
    · simp [find_item_at, List.find?_eq_none]
    · intro it hfind
      rw [find_item_at, List.find?_eq_some] at hfind
      obtain ⟨hp, as, bs, hsplit, hall⟩ := hfind
      refine ⟨by simpa using hp, as, bs, hsplit, ?_⟩
      intro r hr
      have := hall r hr
      simpa using this
  · have htot : ¬((sumSizes st.entries : ℚ)) = 0 := by
      have : sumSizes st.entries ≠ 0 := Nat.pos_iff_ne_zero.mp hpos
      exact_mod_cast this
    have htotpos : (0:ℚ) < (sumSizes st.entries : ℚ) := by exact_mod_cast hpos
    simp only [update_layout, if_neg hne, if_neg htot]
    intro it hit
    have hg := layoutLoop_geom ((sumSizes st.entries : ℚ)) bounds.height htotpos hh
      ((st.entries.insertionSort bySizeDesc).length + 1)
      (st.entries.insertionSort bySizeDesc) bounds
    have h1 : ∀ r ∈ layoutLoop ((sumSizes st.entries : ℚ)) bounds.height
        ((st.entries.insertionSort bySizeDesc).length + 1)
        (st.entries.insertionSort bySizeDesc) bounds,
        0 < r.bounds.width ∧ 0 < r.bounds.height :=
      fun r hr => ⟨(hg.1 r hr).2.1, (hg.1 r hr).2.2⟩
    have hfind := find?_center_of_sep _ h1 hg.2 it hit
    exact ⟨h1 it hit, hfind, fun it' h' => by
      rw [find_item_at] at h'
      rw [hfind] at h'
      cases h'
      rfl⟩

theorem layout_example_rects :
    (update_layout
      (TreeMap.mk [FileEntry.mk "A" 600 0 0 false, FileEntry.mk "B" 300 0 0 false,
        FileEntry.mk "C" 100 0 0 false] "r" []) (Rect.mk 0 0 1000 100)).rects =
    [ItemRect.mk (FileEntry.mk "A" 600 0 0 false) (Rect.mk 0 0 600 100),
     ItemRect.mk (FileEntry.mk "B" 300 0 0 false) (Rect.mk 600 0 300 100),
     ItemRect.mk (FileEntry.mk "C" 100 0 0 false) (Rect.mk 900 0 100 100)] := by
  norm_num [update_layout, sumSizes, List.insertionSort, List.orderedInsert, bySizeDesc,
    layoutLoop, calculate_row, calcRowAux, placeRow, shiftRect]
  simp

theorem find_item_at_first_match_and_center_witness :
    (0 < (ItemRect.mk (FileEntry.mk "A" 600 0 0 false)
        (Rect.mk 0 0 600 100)).bounds.width ∧
      0 < (ItemRect.mk (FileEntry.mk "A" 600 0 0 false)
        (Rect.mk 0 0 600 100)).bounds.height) ∧
    find_item_at
      (update_layout
        (TreeMap.mk [FileEntry.mk "A" 600 0 0 false, FileEntry.mk "B" 300 0 0 false,
          FileEntry.mk "C" 100 0 0 false] "r" []) (Rect.mk 0 0 1000 100))
      (centerOf (ItemRect.mk (FileEntry.mk "A" 600 0 0 false)
        (Rect.mk 0 0 600 100)).bounds) =
      some (ItemRect.mk (FileEntry.mk "A" 600 0 0 false) (Rect.mk 0 0 600 100)) ∧
    (∀ it', find_item_at
      (update_layout
        (TreeMap.mk [FileEntry.mk "A" 600 0 0 false, FileEntry.mk "B" 300 0 0 false,
          FileEntry.mk "C" 100 0 0 false] "r" []) (Rect.mk 0 0 1000 100))
      (centerOf (ItemRect.mk (FileEntry.mk "A" 600 0 0 false)
        (Rect.mk 0 0 600 100)).bounds) = some it' →
      it'.entry.path = (ItemRect.mk (FileEntry.mk "A" 600 0 0 false)
        (Rect.mk 0 0 600 100)).entry.path) :=
  (find_item_at_first_match_and_center
    (TreeMap.mk [FileEntry.mk "A" 600 0 0 false, FileEntry.mk "B" 300 0 0 false,
      FileEntry.mk "C" 100 0 0 false] "r" []) (Rect.mk 0 0 1000 100)
    (by decide) (by decide) (by decide) (by decide)).2
    (ItemRect.mk (FileEntry.mk "A" 600 0 0 false) (Rect.mk 0 0 600 100))
    (by rw [layout_example_rects]; exact List.mem_cons_self _ _)

/-! ### Row decomposition and the specification-side placement (C6) -/

/-- The sequence of rows `update_layout`'s loop finalizes, together with
the leftover entries the loop never processes (because the remaining area
ran out); derived from the source loop by recording `calculate_row`'s
outputs instead of emitting rectangles. -/
def rowsOf (total bH : ℚ) : Nat → List FileEntry → Rect → List (List FileEntry) × List FileEntry
  | 0, entries, _ => ([], entries)
  | fuel + 1, entries, rem =>
    if entries = [] then ([], [])
    else if 0 < rem.height ∧ 0 < rem.width then
      let remSize : ℚ := (sumSizes entries : ℚ)
      let pr := calculate_row entries rem remSize
      if pr.1 = [] then rowsOf total bH fuel pr.2 rem
      else
        let rowSize : ℚ := (sumSizes pr.1 : ℚ)
        let rowHeight := min (rowSize / total * bH) rem.height
        ((pr.1 :: (rowsOf total bH fuel pr.2 (shiftRect rem rowHeight)).1),
          (rowsOf total bH fuel pr.2 (shiftRect rem rowHeight)).2)
    else ([], entries)

/-- Specification-side placement of one row, transcribed from the claim:
each member gets width `(member_size / row_size) * W`, `x` advances
left-to-right, all members share the row's `y` and height `ht`, and
members whose computed width is ≤ 0 are dropped from the output. -/
def specRowRects (rs y ht W : ℚ) : List FileEntry → ℚ → List ItemRect
  | [], _ => []
  | e :: es, x =>
    let w := (e.size : ℚ) / rs * W
    if w ≤ 0 then specRowRects rs y ht W es x
    else ⟨e, ⟨x, y, w, ht⟩⟩ :: specRowRects rs y ht W es (x + w)

/-- Specification-side placement of the finalized rows, transcribed from
the claim: each row is assigned height `(row_size / total) * bH` capped
at the remaining height, placed at the current `y` starting from the left
edge `X`, and the remaining band shrinks accordingly. -/
def specPlaceRows (total bH X W : ℚ) : List (List FileEntry) → ℚ → ℚ → List ItemRect
  | [], _, _ => []
  | row :: rows, y, remH =>
    let rs : ℚ := (sumSizes row : ℚ)
    let h := min (rs / total * bH) remH
    specRowRects rs y h W row X ++ specPlaceRows total bH X W rows (y + h) (remH - h)

theorem placeRow_eq_specRowRects (rs y ht W : ℚ) :
    ∀ (row : List FileEntry) (x : ℚ),
      placeRow rs y ht W row x = specRowRects rs y ht W row x
  | [], _ => rfl
  | e :: es, x => by
    rw [placeRow, specRowRects]
    rcases le_or_lt ((e.size : ℚ) / rs * W) 0 with hle | hlt
    · have hmax : max ((e.size : ℚ) / rs * W) 0 = 0 := max_eq_right hle
      rw [hmax, if_neg (lt_irrefl 0), if_pos hle]
      exact placeRow_eq_specRowRects rs y ht W es x
    · have hmax : max ((e.size : ℚ) / rs * W) 0 = (e.size : ℚ) / rs * W :=
        max_eq_left (le_of_lt hlt)
      rw [hmax, if_pos hlt, if_neg (not_le.mpr hlt)]
      rw [placeRow_eq_specRowRects rs y ht W es (x + (e.size : ℚ) / rs * W)]

theorem rowsOf_flatten (total bH : ℚ) :
    ∀ (fuel : Nat) (entries : List FileEntry) (rem : Rect),
      (rowsOf total bH fuel entries rem).1.flatten ++
        (rowsOf total bH fuel entries rem).2 = entries := by
  intro fuel
  induction fuel with
  | zero => intro entries rem; simp [rowsOf]
  | succ n ih =>
    intro entries rem
    by_cases he : entries = []
    · simp [rowsOf, he]
    · by_cases hg : 0 < rem.height ∧ 0 < rem.width
      · simp only [rowsOf, if_neg he, if_pos hg]
        rcases hpr : calculate_row entries rem ((sumSizes entries : ℚ)) with ⟨row, rest⟩
        simp only [hpr]
        have hsplit : row ++ rest = entries := by
          have := calculate_row_fst_append_snd entries rem ((sumSizes entries : ℚ))
          rw [hpr] at this
          exact this
        by_cases hrow : row = []
        · simp only [if_pos hrow]
          rw [ih rest rem]
          rw [← hsplit, hrow, List.nil_append]
        · simp only [if_neg hrow, List.flatten_cons, List.append_assoc]
          rw [ih rest (shiftRect rem (min ((sumSizes row : ℚ) / total * bH) rem.height))]
          exact hsplit
      · simp [rowsOf, he, hg]

theorem rowsOf_rows_ne_nil (total bH : ℚ) :
    ∀ (fuel : Nat) (entries : List FileEntry) (rem : Rect),
      ∀ row ∈ (rowsOf total bH fuel entries rem).1, row ≠ [] := by
  intro fuel
  induction fuel with
  | zero => intro entries rem; simp [rowsOf]
  | succ n ih =>
    intro entries rem
    by_cases he : entries = []
    · simp [rowsOf, he]
    · by_cases hg : 0 < rem.height ∧ 0 < rem.width
      · simp only [rowsOf, if_neg he, if_pos hg]
        rcases hpr : calculate_row entries rem ((sumSizes entries : ℚ)) with ⟨row, rest⟩
        simp only [hpr]
        by_cases hrow : row = []
        · simp only [if_pos hrow]
          exact ih rest rem
        · simp only [if_neg hrow]
          intro r hr
          rcases List.mem_cons.mp hr with h | h
          · subst h; exact hrow
          · exact ih rest _ r h
      · simp [rowsOf, he, hg]

theorem layoutLoop_eq_specPlaceRows (total bH : ℚ) :
    ∀ (fuel : Nat) (entries : List FileEntry) (rem : Rect),
      layoutLoop total bH fuel entries rem =
        specPlaceRows total bH rem.x rem.width
          (rowsOf total bH fuel entries rem).1 rem.y rem.height := by
  intro fuel
  induction fuel with
  | zero => intro entries rem; simp [layoutLoop, rowsOf, specPlaceRows]
  | succ n ih =>
    intro entries rem
    by_cases he : entries = []
    · simp [layoutLoop, rowsOf, he, specPlaceRows]
    · by_cases hg : 0 < rem.height ∧ 0 < rem.width
      · simp only [layoutLoop, rowsOf, if_neg he, if_pos hg]
        rcases hpr : calculate_row entries rem ((sumSizes entries : ℚ)) with ⟨row, rest⟩
        simp only [hpr]
        by_cases hrow : row = []
        · simp only [if_pos hrow]
          exact ih rest rem
        · simp only [if_neg hrow, specPlaceRows]
          rw [placeRow_eq_specRowRects]
          congr 1
          have := ih rest (shiftRect rem (min ((sumSizes row : ℚ) / total * bH) rem.height))
          simpa [shiftRect] using this
      · simp [layoutLoop, rowsOf, he, hg, specPlaceRows]

theorem insertionSort_filter_stable (l : List FileEntry) (v : Nat) :
    (l.insertionSort bySizeDesc).filter (fun e => decide (e.size = v)) =
      l.filter (fun e => decide (e.size = v)) := by
  have hpw : (l.filter (fun e => decide (e.size = v))).Pairwise bySizeDesc := by
    apply List.pairwise_of_forall_mem_list
    intro a ha b hb
    have ha' := (List.mem_filter.mp ha).2
    have hb' := (List.mem_filter.mp hb).2
    simp only [decide_eq_true_eq] at ha' hb'
    show b.size ≤ a.size
    rw [ha', hb']
  have hsub : List.Sublist (l.filter (fun e => decide (e.size = v)))
      (l.insertionSort bySizeDesc) :=
    List.sublist_insertionSort hpw (List.filter_sublist l)
  have hsub2 : List.Sublist (l.filter (fun e => decide (e.size = v)))
      ((l.insertionSort bySizeDesc).filter (fun e => decide (e.size = v))) := by
    have hstep := List.Sublist.filter (fun e => decide (e.size = v)) hsub
    have hself : (l.filter (fun e => decide (e.size = v))).filter
        (fun e => decide (e.size = v)) = l.filter (fun e => decide (e.size = v)) :=
      List.filter_eq_self.mpr (fun a ha => (List.mem_filter.mp ha).2)
    rwa [hself] at hstep
  have hlen : ((l.insertionSort bySizeDesc).filter (fun e => decide (e.size = v))).length =
      (l.filter (fun e => decide (e.size = v))).length := by
    rw [← List.countP_eq_length_filter, ← List.countP_eq_length_filter]
    exact (List.perm_insertionSort bySizeDesc l).countP_eq _
  exact (List.Sublist.eq_of_length hsub2 hlen.symm).symm

/-- C6: for every non-degenerate layout call, `update_layout` sorts the
entries into a list `s` by descending size with ties kept in original
order (stably: `s` is a permutation of the entries, pairwise
non-increasing in size, and preserves the relative order of the entries of
each fixed size), splits `s` into consecutive nonempty rows followed by
the leftover entries the loop never reaches, and emits exactly the rows
placed by the claim's formulas (`specPlaceRows`): each row gets height
`(row_size / original_total_size) * bounds.height` capped at the remaining
height, and within a row each member gets width
`(member_size / row_size) * width` with `x` advancing left-to-right from
the left edge, all members sharing the row's `y` and height, members whose
computed width is ≤ 0 being dropped. -/
theorem layout_sort_and_row_formulas (st : TreeMap) (bounds : Rect)
    (hne : st.entries ≠ []) (hpos : 0 < sumSizes st.entries)
    (_hw : 0 < bounds.width) (_hh : 0 < bounds.height) :
    ∃ s rows leftover,
      s.Perm st.entries ∧
      s.Pairwise (fun a b => b.size ≤ a.size) ∧
      (∀ v : Nat, s.filter (fun e => decide (e.size = v)) =
        st.entries.filter (fun e => decide (e.size = v))) ∧
      s = rows.flatten ++ leftover ∧
      (∀ row ∈ rows, row ≠ []) ∧
      (update_layout st bounds).rects =
        specPlaceRows ((sumSizes st.entries : ℚ)) bounds.height bounds.x bounds.width
          rows bounds.y bounds.height := by
  have htot : ¬((sumSizes st.entries : ℚ)) = 0 := by
    have : sumSizes st.entries ≠ 0 := Nat.pos_iff_ne_zero.mp hpos
    exact_mod_cast this
  refine ⟨st.entries.insertionSort bySizeDesc,
    (rowsOf ((sumSizes st.entries : ℚ)) bounds.height
      ((st.entries.insertionSort bySizeDesc).length + 1)
      (st.entries.insertionSort bySizeDesc) bounds).1,
    (rowsOf ((sumSizes st.entries : ℚ)) bounds.height
      ((st.entries.insertionSort bySizeDesc).length + 1)
      (st.entries.insertionSort bySizeDesc) bounds).2,
    List.perm_insertionSort bySizeDesc st.entries,
    List.sorted_insertionSort bySizeDesc st.entries,
    fun v => insertionSort_filter_stable st.entries v,
    (rowsOf_flatten ((sumSizes st.entries : ℚ)) bounds.height _ _ bounds).symm,
    rowsOf_rows_ne_nil ((sumSizes st.entries : ℚ)) bounds.height _ _ bounds,
    ?_⟩
  simp only [update_layout, if_neg hne, if_neg htot]
  exact layoutLoop_eq_specPlaceRows ((sumSizes st.entries : ℚ)) bounds.height
    ((st.entries.insertionSort bySizeDesc).length + 1)
    (st.entries.insertionSort bySizeDesc) bounds

theorem layout_sort_and_row_formulas_witness :
    ∃ s rows leftover,
      s.Perm [FileEntry.mk "C" 100 0 0 false, FileEntry.mk "A" 600 0 0 false,
        FileEntry.mk "B" 300 0 0 false] ∧
      s.Pairwise (fun a b => b.size ≤ a.size) ∧
      (∀ v : Nat, s.filter (fun e => decide (e.size = v)) =
        [FileEntry.mk "C" 100 0 0 false, FileEntry.mk "A" 600 0 0 false,
          FileEntry.mk "B" 300 0 0 false].filter (fun e => decide (e.size = v))) ∧
      s = rows.flatten ++ leftover ∧
      (∀ row ∈ rows, row ≠ []) ∧
      (update_layout
        (TreeMap.mk [FileEntry.mk "C" 100 0 0 false, FileEntry.mk "A" 600 0 0 false,
          FileEntry.mk "B" 300 0 0 false] "r" []) (Rect.mk 0 0 1000 100)).rects =
        specPlaceRows ((sumSizes [FileEntry.mk "C" 100 0 0 false,
            FileEntry.mk "A" 600 0 0 false, FileEntry.mk "B" 300 0 0 false] : ℚ))
          (Rect.mk 0 0 1000 100).height (Rect.mk 0 0 1000 100).x
          (Rect.mk 0 0 1000 100).width rows (Rect.mk 0 0 1000 100).y
          (Rect.mk 0 0 1000 100).height :=
  layout_sort_and_row_formulas
    (TreeMap.mk [FileEntry.mk "C" 100 0 0 false, FileEntry.mk "A" 600 0 0 false,
      FileEntry.mk "B" 300 0 0 false] "r" []) (Rect.mk 0 0 1000 100)
    (by decide) (by decide) (by decide) (by decide)

end MacSpace
